import Mathlib

/-!
Shallow embedding of the availability/castability engine of the
actbeat-v2-shared library: the interval algebra over time blocks
(`mergeTimeBlocks`, `subtractTimeBlock`, `subtractTimeBlocks`,
`intersectTimeBlocks`, `isTimeBlockOverlapping` from the date utilities
module) and the casting-combination enumerator (`generateCombinations`,
`generateCombinationsAllowingMultipleRoles`, `countPossibleCombinations`
from the combinations module).

Time instants are modelled as integers (millisecond timestamps, exactly the
values `dayjs.valueOf()` compares with `isBefore` / `isAfter` /
`isSameOrBefore` / `isSameOrAfter`).  The JavaScript stable `sort` by start
value is modelled by `List.insertionSort` on the start-ordering relation,
which is likewise stable.
-/

namespace Actbeat

/-- A `DayjsTimeBlock`: a start and an end instant (ms timestamps). -/
structure TimeBlock where
  start : Int
  «end» : Int
deriving DecidableEq

/-- The comparator `(a, b) => a.start.valueOf() - b.start.valueOf()`:
ascending order of start instants. -/
def startLE (a b : TimeBlock) : Prop := a.start ≤ b.start

instance : DecidableRel startLE :=
  fun a b => inferInstanceAs (Decidable (a.start ≤ b.start))

instance : IsTotal TimeBlock startLE := ⟨fun a b => Int.le_total a.start b.start⟩

instance : IsTrans TimeBlock startLE := ⟨fun _ _ _ h1 h2 => le_trans h1 h2⟩

/-- `[...blocks].sort((a, b) => a.start.valueOf() - b.start.valueOf())`:
a stable sort by start instant. -/
def sortByStart (blocks : List TimeBlock) : List TimeBlock :=
  List.insertionSort startLE blocks

/-- The sweep loop of `mergeTimeBlocks`: `last` is the open accumulator block
(the final element of the `merged` array, the only one still mutated); a
current block whose start `isSameOrBefore` the accumulator's end is merged
into it (end becomes `dayjs.max` of the two ends), otherwise the accumulator
is emitted and the current block opens a new accumulator. -/
def mergeLoop : TimeBlock → List TimeBlock → List TimeBlock
  | last, [] => [last]
  | last, current :: rest =>
    if current.start ≤ last.«end» then
      mergeLoop ⟨last.start, max last.«end» current.«end»⟩ rest
    else
      last :: mergeLoop current rest

/-- Running the merge sweep over an already sorted list: the first block seeds
the accumulator; an empty list yields an empty result. -/
def mergeRun : List TimeBlock → List TimeBlock
  | [] => []
  | first :: rest => mergeLoop first rest

/-- `mergeTimeBlocks`: sort by start instant, then sweep, coalescing blocks
whose start is `isSameOrBefore` the accumulated end (touching blocks merge). -/
def mergeTimeBlocks (blocks : List TimeBlock) : List TimeBlock :=
  mergeRun (sortByStart blocks)

/-- `subtractTimeBlock`: remove `event` from `block`.  A boundary-touching or
disjoint event leaves `[block]`; otherwise the surviving part before the event
(when `event.start.isAfter(block.start)`) and the surviving part after the
event (when `event.end.isBefore(block.end)`) are returned, in that order. -/
def subtractTimeBlock (block event : TimeBlock) : List TimeBlock :=
  if event.«end» ≤ block.start ∨ block.«end» ≤ event.start then
    [block]
  else
    (if block.start < event.start then [⟨block.start, event.start⟩] else []) ++
    (if event.«end» < block.«end» then [⟨event.«end», block.«end»⟩] else [])

/-- `subtractTimeBlocks`: starting from `[block]`, each event in list order is
subtracted from every fragment of the current remaining set. -/
def subtractTimeBlocks (block : TimeBlock) (events : List TimeBlock) : List TimeBlock :=
  events.foldl
    (fun remaining event => remaining.flatMap (fun availBlock => subtractTimeBlock availBlock event))
    [block]

/-- The two-pointer sweep of `intersectTimeBlocks` over the two sorted arrays:
emit `[max starts, min ends)` when that overlap is positive, then advance the
pointer whose block has the earlier (or equal) end. -/
def intersectLoop : List TimeBlock → List TimeBlock → List TimeBlock
  | [], _ => []
  | _ :: _, [] => []
  | blockA :: restA, blockB :: restB =>
    let s := max blockA.start blockB.start
    let e := min blockA.«end» blockB.«end»
    let rest :=
      if blockA.«end» ≤ blockB.«end» then intersectLoop restA (blockB :: restB)
      else intersectLoop (blockA :: restA) restB
    if s < e then ⟨s, e⟩ :: rest else rest
termination_by x y => x.length + y.length
decreasing_by all_goals (simp only [List.length_cons]; omega)

/-- `intersectTimeBlocks`: early-return `[]` when either input is empty, then
sort both inputs by start and run the two-pointer sweep; an overlap is emitted
only when its start `isBefore` (strictly) its end. -/
def intersectTimeBlocks (blocksA blocksB : List TimeBlock) : List TimeBlock :=
  if blocksA.length = 0 ∨ blocksB.length = 0 then []
  else intersectLoop (sortByStart blocksA) (sortByStart blocksB)

/-- `isTimeBlockOverlapping`: `a.start.isBefore(b.end) && a.end.isAfter(b.start)`,
the strict positive-duration overlap test. -/
def isTimeBlockOverlapping (a b : TimeBlock) : Bool :=
  a.start < b.«end» && a.«end» > b.start

/-- The exact length of a time block (end minus start, in the model's ms
time units). -/
def duration (b : TimeBlock) : Int := b.«end» - b.start

/-- `CharacterActors`: a character together with its candidate actor IDs, in
iteration order. -/
structure CharacterActors where
  characterId : String
  actors : List String
deriving DecidableEq

/-- The recursive worker of `generateCombinations`: `current` is the partial
assignment built so far (the pairs recorded in recursion order) and `used` the
set of actor IDs already assigned on the current path.  Each candidate actor
of the current character that is not yet used extends the path; a character
with no candidate actors kills the branch. -/
def genExclusiveAux : List CharacterActors → List (String × String) → List String →
    List (List (String × String))
  | [], current, _ => [current]
  | charInfo :: rest, current, usedActors =>
    if charInfo.actors = [] then []
    else
      charInfo.actors.flatMap (fun actorId =>
        if actorId ∈ usedActors then []
        else genExclusiveAux rest (current ++ [(charInfo.characterId, actorId)]) (actorId :: usedActors))

/-- `generateCombinations`: exclusive-mode enumeration (no actor may play two
characters).  An empty character list yields no combinations. -/
def generateCombinations (characterActors : List CharacterActors) :
    List (List (String × String)) :=
  if characterActors = [] then [] else genExclusiveAux characterActors [] []

/-- The recursive worker of `generateCombinationsAllowingMultipleRoles`: the
same depth-first structure, without the used-actor exclusion. -/
def genMultiAux : List CharacterActors → List (String × String) →
    List (List (String × String))
  | [], current => [current]
  | charInfo :: rest, current =>
    if charInfo.actors = [] then []
    else
      charInfo.actors.flatMap (fun actorId =>
        genMultiAux rest (current ++ [(charInfo.characterId, actorId)]))

/-- `generateCombinationsAllowingMultipleRoles`: multi-role enumeration.  An
empty character list yields no combinations. -/
def generateCombinationsAllowingMultipleRoles (characterActors : List CharacterActors) :
    List (List (String × String)) :=
  if characterActors = [] then [] else genMultiAux characterActors []

/-- `countPossibleCombinations`: 0 for an empty character list; in multi-role
mode the product of the candidate-list lengths; in exclusive mode 0 when the
characters outnumber the distinct candidate actors, and otherwise the product
over input positions `i` of `Math.max(0, actorCounts[i] - i)` (natural-number
truncated subtraction is exactly `Math.max(0, _ - _)`; the final
`Math.max(0, estimate)` of the source is the identity on these non-negative
values). -/
def countPossibleCombinations (characterActors : List CharacterActors)
    (allowMultipleRoles : Bool) : Nat :=
  if characterActors = [] then 0
  else if allowMultipleRoles then
    characterActors.foldl (fun total c => total * c.actors.length) 1
  else if ((characterActors.flatMap (fun c => c.actors)).dedup).length <
      characterActors.length then 0
  else
    (characterActors.map (fun c => c.actors.length)).enum.foldl
      (fun estimate ic => estimate * (ic.2 - ic.1)) 1

/-! ## Claim C1: touching-boundary asymmetry between merge and intersect -/

/-- C1: for well-formed ranges `a` and `b` with `a.end = b.start`,
`intersectTimeBlocks [a] [b]` is empty while `mergeTimeBlocks [a, b]` is the
single range from `a.start` to `b.end`. -/
theorem merge_intersect_touching_boundary (a b : TimeBlock)
    (ha : a.start < a.«end») (hb : b.start < b.«end») (hab : a.«end» = b.start) :
    intersectTimeBlocks [a] [b] = [] ∧
    mergeTimeBlocks [a, b] = [⟨a.start, b.«end»⟩] := by
  have hab' : a.start < b.start := hab ▸ ha
  constructor
  · rw [intersectTimeBlocks, if_neg (by simp)]
    have hsa : sortByStart [a] = [a] := rfl
    have hsb : sortByStart [b] = [b] := rfl
    have hne : ¬ (a.start ⊔ b.start < a.«end» ⊓ b.«end») := by
      rw [max_eq_right (le_of_lt hab'), min_eq_left (by omega)]
      omega
    rw [hsa, hsb, intersectLoop, if_neg hne, if_pos (show a.«end» ≤ b.«end» by omega),
      intersectLoop]
  · rw [mergeTimeBlocks]
    have hs : sortByStart [a, b] = [a, b] := by
      rw [sortByStart, List.insertionSort, List.insertionSort, List.insertionSort,
        List.orderedInsert, List.orderedInsert,
        if_pos (show startLE a b from le_of_lt hab')]
    rw [hs, mergeRun, mergeLoop, if_pos (le_of_eq hab.symm), mergeLoop,
      max_eq_right (by omega)]

/-- C1 witness: the theorem instantiated at `[0,1)` and `[1,2)`. -/
theorem merge_intersect_touching_boundary_witness :
    intersectTimeBlocks [⟨0, 1⟩] [⟨1, 2⟩] = [] ∧
    mergeTimeBlocks [⟨0, 1⟩, ⟨1, 2⟩] = [⟨0, 2⟩] :=
  merge_intersect_touching_boundary ⟨0, 1⟩ ⟨1, 2⟩ (by decide) (by decide) (by decide)

/-! ## Claim C6: subtract conservation for a single strictly interior cut -/

/-- C6: a single cut strictly inside a well-formed base yields exactly the two
fragments `[base.start, cut.start)` and `[cut.end, base.end)`, whose durations
sum to `duration base - duration cut`. -/
theorem subtract_single_cut_conservation (base cut : TimeBlock)
    (hbase : base.start < base.«end») (h1 : base.start < cut.start)
    (h2 : cut.«end» < base.«end») (h3 : cut.start < cut.«end») :
    subtractTimeBlocks base [cut] =
      [⟨base.start, cut.start⟩, ⟨cut.«end», base.«end»⟩] ∧
    duration ⟨base.start, cut.start⟩ + duration ⟨cut.«end», base.«end»⟩ =
      duration base - duration cut := by
  constructor
  · rw [subtractTimeBlocks, List.foldl_cons, List.foldl_nil, List.flatMap_cons,
      subtractTimeBlock, if_neg (by omega), if_pos h1, if_pos h2]
    rfl
  · simp only [duration]
    omega

/-- C6 witness: the theorem instantiated at base `[0,10)` and cut `[2,5)`. -/
theorem subtract_single_cut_conservation_witness :
    subtractTimeBlocks ⟨0, 10⟩ [⟨2, 5⟩] = [⟨0, 2⟩, ⟨5, 10⟩] ∧
    duration ⟨0, 2⟩ + duration ⟨5, 10⟩ = duration ⟨0, 10⟩ - duration ⟨2, 5⟩ :=
  subtract_single_cut_conservation ⟨0, 10⟩ ⟨2, 5⟩ (by decide) (by decide)
    (by decide) (by decide)

/-! ## Claim C9: empty-input enumeration and the one-character base case -/

/-- C9: both enumerators return no assignments on an empty character list (not
one trivial assignment), while a single character with a single candidate
yields exactly one assignment. -/
theorem empty_input_enumeration (c a : String) :
    generateCombinations [] = [] ∧
    generateCombinationsAllowingMultipleRoles [] = [] ∧
    generateCombinations [⟨c, [a]⟩] = [[(c, a)]] := by
  refine ⟨rfl, rfl, ?_⟩
  rw [generateCombinations, if_neg (by simp)]
  rw [genExclusiveAux, if_neg (by simp)]
  simp [genExclusiveAux]

/-! ## Enumeration lemmas (claims C4, C5, C7) -/

/-- The length of a `flatMap` whose pieces all have the same length. -/
theorem length_flatMap_const {α β : Type} (l : List α) (f : α → List β) (k : Nat)
    (h : ∀ a ∈ l, (f a).length = k) : (l.flatMap f).length = l.length * k := by
  induction l with
  | nil => simp
  | cons a t ih =>
    rw [List.flatMap_cons, List.length_append, h a (List.mem_cons_self a t),
      ih (fun x hx => h x (List.mem_cons_of_mem a hx)), List.length_cons]
    ring

/-- The multi-role worker returns one assignment per element of the Cartesian
product of the candidate lists. -/
theorem genMultiAux_length (cs : List CharacterActors) :
    ∀ current, (genMultiAux cs current).length =
      (cs.map (fun c => c.actors.length)).prod := by
  induction cs with
  | nil => intro current; rfl
  | cons c rest ih =>
    intro current
    by_cases hc : c.actors = []
    · rw [genMultiAux, if_pos hc]
      simp [hc]
    · rw [genMultiAux, if_neg hc, List.map_cons, List.prod_cons]
      exact length_flatMap_const _ _ _ (fun a _ => ih _)

/-- Every assignment produced by the exclusive worker extends the current
partial assignment by one pair per remaining character; the added actor IDs
are pairwise distinct, disjoint from the used set, and drawn from the
remaining candidate lists. -/
theorem genExclusiveAux_spec (cs : List CharacterActors) :
    ∀ current used r, r ∈ genExclusiveAux cs current used →
      ∃ t, r = current ++ t ∧ t.length = cs.length ∧ (t.map Prod.snd).Nodup ∧
        ∀ x ∈ t.map Prod.snd, x ∉ used ∧ x ∈ cs.flatMap (fun c => c.actors) := by
  induction cs with
  | nil =>
    intro current used r hr
    rw [genExclusiveAux, List.mem_singleton] at hr
    exact ⟨[], by simp [hr], rfl, by simp, by simp⟩
  | cons c rest ih =>
    intro current used r hr
    rw [genExclusiveAux] at hr
    by_cases hc : c.actors = []
    · rw [if_pos hc] at hr
      exact absurd hr (List.not_mem_nil r)
    · rw [if_neg hc, List.mem_flatMap] at hr
      obtain ⟨a, ha, hr⟩ := hr
      by_cases hu : a ∈ used
      · rw [if_pos hu] at hr
        exact absurd hr (List.not_mem_nil r)
      · rw [if_neg hu] at hr
        obtain ⟨t, hteq, htlen, htnd, htmem⟩ := ih _ _ _ hr
        refine ⟨(c.characterId, a) :: t, ?_, ?_, ?_, ?_⟩
        · rw [hteq, List.append_assoc]
          rfl
        · simp [htlen]
        · rw [List.map_cons, List.nodup_cons]
          exact ⟨fun hmem => (htmem a hmem).1 (List.mem_cons_self a used), htnd⟩
        · intro x hx
          rw [List.map_cons, List.mem_cons] at hx
          rcases hx with rfl | hx
          · exact ⟨hu, List.mem_flatMap.mpr ⟨c, List.mem_cons_self c rest, ha⟩⟩
          · obtain ⟨hnotin, hmem⟩ := htmem x hx
            refine ⟨fun hxu => hnotin (List.mem_cons_of_mem a hxu), ?_⟩
            rw [List.flatMap_cons]
            exact List.mem_append.mpr (Or.inr hmem)

/-! ## Claim C7: multi-role count equals the multi-role enumeration length -/

/-- C7: `countPossibleCombinations` in multi-role mode equals the length of
the multi-role enumeration, which for a non-empty character list is the
product of the candidate-list lengths. -/
theorem multi_role_count_matches_enumeration (cs : List CharacterActors) :
    countPossibleCombinations cs true =
      (generateCombinationsAllowingMultipleRoles cs).length ∧
    (cs ≠ [] → (generateCombinationsAllowingMultipleRoles cs).length =
      (cs.map (fun c => c.actors.length)).prod) := by
  by_cases h : cs = []
  · subst h
    exact ⟨rfl, fun hne => absurd rfl hne⟩
  · constructor
    · rw [countPossibleCombinations, if_neg h, if_pos rfl,
        generateCombinationsAllowingMultipleRoles, if_neg h, genMultiAux_length]
      simp [List.prod_eq_foldl, List.foldl_map]
    · intro _
      rw [generateCombinationsAllowingMultipleRoles, if_neg h, genMultiAux_length]

/-- C7 witness: two characters sharing two candidates, in multi-role mode:
the count, the enumeration length and the Cartesian-product size all equal 4. -/
theorem multi_role_count_matches_enumeration_witness :
    countPossibleCombinations [⟨"g1", ["x", "y"]⟩, ⟨"g2", ["x", "y"]⟩] true =
      (generateCombinationsAllowingMultipleRoles
        [⟨"g1", ["x", "y"]⟩, ⟨"g2", ["x", "y"]⟩]).length ∧
    (generateCombinationsAllowingMultipleRoles
        [⟨"g1", ["x", "y"]⟩, ⟨"g2", ["x", "y"]⟩]).length =
      (([⟨"g1", ["x", "y"]⟩, ⟨"g2", ["x", "y"]⟩] :
        List CharacterActors).map (fun c => c.actors.length)).prod :=
  ⟨(multi_role_count_matches_enumeration _).1,
   (multi_role_count_matches_enumeration _).2 (by decide)⟩

/-! ## Claim C5: exclusive enumeration assigns pairwise distinct actors -/

/-- C5: every assignment returned by the exclusive enumeration maps its
characters to pairwise distinct actor IDs. -/
theorem generateCombinations_distinct_actors (cs : List CharacterActors)
    (r : List (String × String)) (hr : r ∈ generateCombinations cs) :
    (r.map Prod.snd).Nodup := by
  rw [generateCombinations] at hr
  by_cases h : cs = []
  · rw [if_pos h] at hr
    exact absurd hr (List.not_mem_nil r)
  · rw [if_neg h] at hr
    obtain ⟨t, hteq, _, htnd, _⟩ := genExclusiveAux_spec cs [] [] r hr
    rw [hteq]
    simpa using htnd

/-- C5 witness: a concrete assignment from the exclusive enumeration of two
characters sharing two candidates has distinct actor values. -/
theorem generateCombinations_distinct_actors_witness :
    [("a", "x"), ("b", "y")] ∈
      generateCombinations [⟨"a", ["x", "y"]⟩, ⟨"b", ["x", "y"]⟩] ∧
    (([("a", "x"), ("b", "y")] : List (String × String)).map Prod.snd).Nodup :=
  ⟨by decide,
   generateCombinations_distinct_actors [⟨"a", ["x", "y"]⟩, ⟨"b", ["x", "y"]⟩]
     [("a", "x"), ("b", "y")] (by decide)⟩

/-! ## Claim C4: pigeonhole infeasibility -/

/-- C4: when the characters outnumber the distinct candidate actors, the
exclusive count is 0 and the exclusive enumeration is empty. -/
theorem pigeonhole_infeasibility (cs : List CharacterActors)
    (h : ((cs.flatMap (fun c => c.actors)).dedup).length < cs.length) :
    countPossibleCombinations cs false = 0 ∧ generateCombinations cs = [] := by
  have hne : cs ≠ [] := by
    intro hnil
    rw [hnil] at h
    simp at h
  constructor
  · rw [countPossibleCombinations, if_neg hne, if_neg Bool.false_ne_true, if_pos h]
  · rw [generateCombinations, if_neg hne, List.eq_nil_iff_forall_not_mem]
    intro r hr
    obtain ⟨t, hteq, htlen, htnd, htmem⟩ := genExclusiveAux_spec cs [] [] r hr
    have hsub : t.map Prod.snd ⊆ (cs.flatMap (fun c => c.actors)).dedup :=
      fun x hx => List.mem_dedup.mpr (htmem x hx).2
    have hle := (List.subperm_of_subset htnd hsub).length_le
    rw [List.length_map, htlen] at hle
    omega

/-- C4 witness: two characters whose only candidate is the same single actor:
the count is 0 and the enumeration is empty. -/
theorem pigeonhole_infeasibility_witness :
    countPossibleCombinations [⟨"a", ["x"]⟩, ⟨"b", ["x"]⟩] false = 0 ∧
    generateCombinations [⟨"a", ["x"]⟩, ⟨"b", ["x"]⟩] = [] :=
  pigeonhole_infeasibility _ (by decide)

/-! ## Claim C2, counterexample part: the exclusive estimate is not an upper
bound on the exclusive enumeration -/

/-- C2 counterexample: with characters `c0 ↦ {x, y}` and `c1 ↦ {z}`, the
exclusive-mode estimate is `2 * max(0, 1 - 1) = 0`, yet exclusive enumeration
returns 2 assignments, so the estimate is strictly below the exact count. -/
theorem countPossibleCombinations_not_upper_bound :
    countPossibleCombinations [⟨"c0", ["x", "y"]⟩, ⟨"c1", ["z"]⟩] false <
      (generateCombinations [⟨"c0", ["x", "y"]⟩, ⟨"c1", ["z"]⟩]).length := by
  decide

/-! ## Claim C3, counterexample part: intersect is not insensitive to the
input order when a collection holds equal-start overlapping ranges -/

/-- C3 counterexample: `[[0,5), [0,3)]` is a permutation of `[[0,3), [0,5)]`
(all ranges well-formed), yet intersecting each with `[[0,10)]` returns the
two overlaps in different orders. -/
theorem intersectTimeBlocks_not_permutation_invariant :
    ([⟨0, 5⟩, ⟨0, 3⟩] : List TimeBlock).Perm [⟨0, 3⟩, ⟨0, 5⟩] ∧
    intersectTimeBlocks [⟨0, 5⟩, ⟨0, 3⟩] [⟨0, 10⟩] ≠
      intersectTimeBlocks [⟨0, 3⟩, ⟨0, 5⟩] [⟨0, 10⟩] := by
  constructor
  · exact List.Perm.swap _ _ _
  · have h1 : intersectTimeBlocks [⟨0, 5⟩, ⟨0, 3⟩] [⟨0, 10⟩] = [⟨0, 5⟩, ⟨0, 3⟩] := by
      norm_num [intersectTimeBlocks, sortByStart, List.insertionSort,
        List.orderedInsert, startLE, intersectLoop]
    have h2 : intersectTimeBlocks [⟨0, 3⟩, ⟨0, 5⟩] [⟨0, 10⟩] = [⟨0, 3⟩, ⟨0, 5⟩] := by
      norm_num [intersectTimeBlocks, sortByStart, List.insertionSort,
        List.orderedInsert, startLE, intersectLoop]
    rw [h1, h2]
    decide

/-! ## Claim C10, counterexample part: an ill-formed cut breaks the
disjointness of the subtract output -/

/-- C10 counterexample: subtracting the ill-formed cut `[5,3)` from the
well-formed base `[0,10)` yields the fragments `[0,5)` and `[3,10)`, which
overlap, so the output is not pairwise disjoint in ascending order. -/
theorem subtractTimeBlocks_disjointness_counterexample :
    subtractTimeBlocks ⟨0, 10⟩ [⟨5, 3⟩] = [⟨0, 5⟩, ⟨3, 10⟩] ∧
    ¬ List.Pairwise (fun f g => f.«end» ≤ g.start)
      (subtractTimeBlocks ⟨0, 10⟩ [⟨5, 3⟩]) := by
  constructor
  · decide
  · decide

/-! ## Claim C2, amended part: what the exclusive estimate actually returns -/

/-- The estimate loop over indexed candidate counts is the product of the
position-adjusted counts. -/
theorem enum_foldl_mul_eq_prod (l : List Nat) :
    l.enum.foldl (fun estimate ic => estimate * (ic.2 - ic.1)) 1 =
      (List.zipWith (fun count i => count - i) l (List.range l.length)).prod := by
  have h1 : l.enum.foldl (fun estimate ic => estimate * (ic.2 - ic.1)) 1 =
      (l.enum.map (fun ic : Nat × Nat => ic.2 - ic.1)).prod := by
    rw [List.prod_eq_foldl, List.foldl_map]
  rw [h1, List.enum_eq_zip_range, List.zip_eq_zipWith, List.map_zipWith,
    List.zipWith_comm]

/-- C2 amended: for a non-empty character list that does not trip the
pigeonhole check, the exclusive-mode estimate equals the product over input
positions `i` of `max(0, candidateCount[i] - i)`; by the counterexample this
product is not an upper bound on the exclusive enumeration. -/
theorem countPossibleCombinations_exclusive_formula (cs : List CharacterActors)
    (h1 : cs ≠ [])
    (h2 : cs.length ≤ ((cs.flatMap (fun c => c.actors)).dedup).length) :
    countPossibleCombinations cs false =
      (List.zipWith (fun count i => count - i)
        (cs.map (fun c => c.actors.length)) (List.range cs.length)).prod := by
  rw [countPossibleCombinations, if_neg h1, if_neg Bool.false_ne_true,
    if_neg (not_lt.mpr h2), enum_foldl_mul_eq_prod, List.length_map]

/-- C2 amended witness: two characters with overlapping candidate pairs give
the estimate `(2 - 0) * (2 - 1) = 2`. -/
theorem countPossibleCombinations_exclusive_formula_witness :
    countPossibleCombinations [⟨"a", ["x", "y"]⟩, ⟨"b", ["y", "z"]⟩] false =
      (List.zipWith (fun count i => count - i)
        (([⟨"a", ["x", "y"]⟩, ⟨"b", ["y", "z"]⟩] :
          List CharacterActors).map (fun c => c.actors.length))
        (List.range ([⟨"a", ["x", "y"]⟩, ⟨"b", ["y", "z"]⟩] :
          List CharacterActors).length)).prod :=
  countPossibleCombinations_exclusive_formula
    [⟨"a", ["x", "y"]⟩, ⟨"b", ["y", "z"]⟩] (by decide) (by decide)

/-! ## Merge sweep lemmas (claims C8 and C3) -/

/-- `mergeLoop` never returns an empty list. -/
theorem mergeLoop_ne_nil (l : List TimeBlock) : ∀ acc : TimeBlock, mergeLoop acc l ≠ [] := by
  induction l with
  | nil =>
    intro acc
    rw [mergeLoop]
    simp
  | cons c t ih =>
    intro acc
    rw [mergeLoop]
    by_cases h : c.start ≤ acc.«end»
    · rw [if_pos h]
      exact ih _
    · rw [if_neg h]
      simp

/-- The first block emitted by `mergeLoop` starts at the accumulator's start. -/
theorem mergeLoop_head_start (l : List TimeBlock) : ∀ acc : TimeBlock,
    ∃ e t, mergeLoop acc l = ⟨acc.start, e⟩ :: t := by
  induction l with
  | nil =>
    intro acc
    exact ⟨acc.«end», [], rfl⟩
  | cons c t ih =>
    intro acc
    rw [mergeLoop]
    by_cases h : c.start ≤ acc.«end»
    · rw [if_pos h]
      exact ih _
    · rw [if_neg h]
      exact ⟨acc.«end», mergeLoop c t, rfl⟩

/-- On a sorted tail, every block emitted by `mergeLoop` starts no earlier
than the accumulator. -/
theorem mergeLoop_start_le (l : List TimeBlock) : ∀ acc : TimeBlock,
    List.Sorted startLE (acc :: l) → ∀ z ∈ mergeLoop acc l, acc.start ≤ z.start := by
  induction l with
  | nil =>
    intro acc _ z hz
    rw [mergeLoop, List.mem_singleton] at hz
    exact hz ▸ le_refl _
  | cons c t ih =>
    intro acc hs z hz
    rw [List.sorted_cons] at hs
    obtain ⟨hacc, hs'⟩ := hs
    rw [mergeLoop] at hz
    by_cases h : c.start ≤ acc.«end»
    · rw [if_pos h] at hz
      have hsorted : List.Sorted startLE
          ((⟨acc.start, max acc.«end» c.«end»⟩ : TimeBlock) :: t) := by
        rw [List.sorted_cons]
        exact ⟨fun z hz => hacc z (List.mem_cons_of_mem c hz),
          (List.sorted_cons.mp hs').2⟩
      exact ih _ hsorted z hz
    · rw [if_neg h, List.mem_cons] at hz
      rcases hz with rfl | hz
      · exact le_refl _
      · exact le_trans (hacc c (List.mem_cons_self c t)) (ih c hs' z hz)

/-- On a sorted tail, the merge sweep emits a sorted list whose consecutive
blocks are separated by genuine gaps. -/
theorem mergeLoop_sorted_gapped (l : List TimeBlock) : ∀ acc : TimeBlock,
    List.Sorted startLE (acc :: l) →
    List.Sorted startLE (mergeLoop acc l) ∧
    List.Chain' (fun x y => x.«end» < y.start) (mergeLoop acc l) := by
  induction l with
  | nil =>
    intro acc _
    rw [mergeLoop]
    exact ⟨List.sorted_singleton _, List.chain'_singleton _⟩
  | cons c t ih =>
    intro acc hs
    rw [List.sorted_cons] at hs
    obtain ⟨hacc, hs'⟩ := hs
    rw [mergeLoop]
    by_cases h : c.start ≤ acc.«end»
    · rw [if_pos h]
      have hsorted : List.Sorted startLE
          ((⟨acc.start, max acc.«end» c.«end»⟩ : TimeBlock) :: t) := by
        rw [List.sorted_cons]
        exact ⟨fun z hz => hacc z (List.mem_cons_of_mem c hz),
          (List.sorted_cons.mp hs').2⟩
      exact ih _ hsorted
    · rw [if_neg h]
      obtain ⟨hsrt, hch⟩ := ih c hs'
      constructor
      · rw [List.sorted_cons]
        exact ⟨fun z hz => le_trans (hacc c (List.mem_cons_self c t))
          (mergeLoop_start_le t c hs' z hz), hsrt⟩
      · obtain ⟨e, t', heq⟩ := mergeLoop_head_start t c
        rw [heq]
        rw [heq] at hch
        exact List.chain'_cons.mpr ⟨not_le.mp h, hch⟩

/-- A gapped list is a fixed point of the merge sweep. -/
theorem mergeLoop_of_gapped (l : List TimeBlock) : ∀ acc : TimeBlock,
    List.Chain' (fun x y => x.«end» < y.start) (acc :: l) →
    mergeLoop acc l = acc :: l := by
  induction l with
  | nil =>
    intro acc _
    rfl
  | cons c t ih =>
    intro acc hch
    rw [List.chain'_cons] at hch
    rw [mergeLoop, if_neg (not_le.mpr hch.1), ih c hch.2]

/-! ## Claim C8: merge idempotence -/

/-- C8: `mergeTimeBlocks` is idempotent on every range collection, including
collections holding ill-formed ranges. -/
theorem mergeTimeBlocks_idempotent (x : List TimeBlock) :
    mergeTimeBlocks (mergeTimeBlocks x) = mergeTimeBlocks x := by
  rw [mergeTimeBlocks, mergeTimeBlocks]
  cases hs : sortByStart x with
  | nil => rfl
  | cons h t =>
    have hsort : List.Sorted startLE (h :: t) := by
      rw [← hs]
      exact List.sorted_insertionSort startLE x
    obtain ⟨hsrt, hch⟩ := mergeLoop_sorted_gapped t h hsort
    rw [mergeRun, sortByStart, List.Sorted.insertionSort_eq hsrt]
    cases hm : mergeLoop h t with
    | nil => exact absurd hm (mergeLoop_ne_nil t h)
    | cons mh mt =>
      rw [mergeRun]
      rw [hm] at hch
      exact mergeLoop_of_gapped mt mh hch

/-! ## Permutation invariance of the merge sweep (claim C3, amended part).
The sort compares only start instants, so sorting a permuted input can only
permute blocks within runs of equal starts; for well-formed blocks the sweep
is insensitive to the order inside such a run. -/

/-- Swapping two adjacent equal-start well-formed blocks right after the
accumulator does not change the merge sweep. -/
theorem mergeLoop_swap_adj (a b : TimeBlock) (hs : a.start = b.start)
    (ha : a.start ≤ a.«end») (hb : b.start ≤ b.«end») (acc : TimeBlock)
    (t : List TimeBlock) :
    mergeLoop acc (a :: b :: t) = mergeLoop acc (b :: a :: t) := by
  by_cases h : a.start ≤ acc.«end»
  · have h' : b.start ≤ acc.«end» := hs ▸ h
    rw [mergeLoop, if_pos h, mergeLoop,
      if_pos (show b.start ≤ max acc.«end» a.«end» from
        le_trans h' (le_max_left _ _)),
      mergeLoop, if_pos h', mergeLoop,
      if_pos (show a.start ≤ max acc.«end» b.«end» from
        le_trans h (le_max_left _ _))]
    have hmax : max (max acc.«end» a.«end») b.«end» =
        max (max acc.«end» b.«end») a.«end» := by
      rw [max_assoc, max_comm a.«end» b.«end», ← max_assoc]
    rw [hmax]
  · have h' : ¬ b.start ≤ acc.«end» := by
      rw [← hs]
      exact h
    rw [mergeLoop, if_neg h, mergeLoop,
      if_pos (show b.start ≤ a.«end» from hs ▸ ha),
      mergeLoop, if_neg h', mergeLoop,
      if_pos (show a.start ≤ b.«end» from hs ▸ hb)]
    have hblk : (⟨a.start, max a.«end» b.«end»⟩ : TimeBlock) =
        ⟨b.start, max b.«end» a.«end»⟩ := by
      rw [hs, max_comm]
    rw [hblk]

/-- Swapping two adjacent equal-start well-formed blocks anywhere in the tail
does not change the merge sweep. -/
theorem mergeLoop_swap_mid (a b : TimeBlock) (hs : a.start = b.start)
    (ha : a.start ≤ a.«end») (hb : b.start ≤ b.«end») :
    ∀ (w : List TimeBlock) (acc : TimeBlock) (t : List TimeBlock),
      mergeLoop acc (w ++ a :: b :: t) = mergeLoop acc (w ++ b :: a :: t) := by
  intro w
  induction w with
  | nil => exact mergeLoop_swap_adj a b hs ha hb
  | cons c w' ih =>
    intro acc t
    rw [List.cons_append, List.cons_append, mergeLoop, mergeLoop]
    by_cases h : c.start ≤ acc.«end»
    · rw [if_pos h, if_pos h, ih]
    · rw [if_neg h, if_neg h, ih]

/-- A well-formed block can be bubbled to the front across a prefix of
well-formed blocks sharing its start, without changing the merge sweep. -/
theorem mergeLoop_bubble (b : TimeBlock) (hb : b.start ≤ b.«end») :
    ∀ u : List TimeBlock, (∀ x ∈ u, x.start = b.start ∧ x.start ≤ x.«end») →
    ∀ (acc : TimeBlock) (v : List TimeBlock),
      mergeLoop acc (u ++ b :: v) = mergeLoop acc (b :: (u ++ v)) := by
  intro u
  induction u using List.reverseRecOn with
  | nil =>
    intro _ acc v
    rfl
  | append_singleton u' a ih =>
    intro hu acc v
    obtain ⟨has, haw⟩ := hu a (by simp)
    have hu' : ∀ x ∈ u', x.start = b.start ∧ x.start ≤ x.«end» :=
      fun x hx => hu x (by simp [hx])
    rw [List.append_assoc, List.singleton_append,
      mergeLoop_swap_mid a b has haw hb u' acc v, ih hu' acc (a :: v),
      List.append_assoc, List.singleton_append]

/-- The run-level version of `mergeLoop_bubble`: bubbling to the very head of
the sweep. -/
theorem mergeRun_bubble (b : TimeBlock) (hb : b.start ≤ b.«end»)
    (u : List TimeBlock) (hu : ∀ x ∈ u, x.start = b.start ∧ x.start ≤ x.«end»)
    (v : List TimeBlock) :
    mergeRun (u ++ b :: v) = mergeRun (b :: (u ++ v)) := by
  cases u with
  | nil => rfl
  | cons a u' =>
    obtain ⟨has, haw⟩ := hu a (List.mem_cons_self a u')
    have hu' : ∀ x ∈ u', x.start = b.start ∧ x.start ≤ x.«end» :=
      fun x hx => hu x (List.mem_cons_of_mem a hx)
    rw [List.cons_append, mergeRun, mergeLoop_bubble b hb u' hu' a v]
    rw [show mergeRun (b :: (a :: u' ++ v)) = mergeLoop b (a :: (u' ++ v)) from rfl]
    rw [mergeLoop, if_pos (show b.start ≤ a.«end» from has ▸ haw),
      mergeLoop, if_pos (show a.start ≤ b.«end» from has ▸ hb)]
    have hblk : (⟨a.start, max a.«end» b.«end»⟩ : TimeBlock) =
        ⟨b.start, max b.«end» a.«end»⟩ := by
      rw [has, max_comm]
    rw [hblk]

/-- In a sorted list that is a permutation of a sorted list with head `b`,
every block before `b` shares `b`'s start. -/
theorem heads_start_eq {u v t2 : List TimeBlock} {b : TimeBlock}
    (hp : (u ++ b :: v).Perm (b :: t2))
    (hs1 : List.Sorted startLE (u ++ b :: v))
    (hs2 : List.Sorted startLE (b :: t2)) :
    ∀ x ∈ u, x.start = b.start := by
  intro x hx
  have h1 : x.start ≤ b.start :=
    (List.pairwise_append.mp hs1).2.2 x hx b (List.mem_cons_self b v)
  have h2 : b.start ≤ x.start := by
    have hxmem : x ∈ b :: t2 := hp.mem_iff.mp (List.mem_append.mpr (Or.inl hx))
    rcases List.mem_cons.mp hxmem with rfl | hxm
    · exact le_refl _
    · exact (List.sorted_cons.mp hs2).1 x hxm
  exact le_antisymm h1 h2

/-- The merge sweep gives equal results on any two sorted permutations of the
same collection of well-formed blocks, whatever the open accumulator. -/
theorem mergeLoop_perm_invariant :
    ∀ (n : Nat) (s1 s2 : List TimeBlock) (acc : TimeBlock), s1.length = n →
      s1.Perm s2 → List.Sorted startLE s1 → List.Sorted startLE s2 →
      (∀ x ∈ s1, x.start ≤ x.«end») → mergeLoop acc s1 = mergeLoop acc s2 := by
  intro n
  induction n with
  | zero =>
    intro s1 s2 acc h1 hp _ _ _
    rw [List.length_eq_zero] at h1
    subst h1
    rw [← hp.nil_eq]
  | succ n ih =>
    intro s1 s2 acc hlen hp hs1 hs2 hwf
    cases s2 with
    | nil =>
      rw [← hp.symm.nil_eq] at hlen
      simp at hlen
    | cons b t2 =>
      have hbmem : b ∈ s1 := hp.mem_iff.mpr (List.mem_cons_self b t2)
      obtain ⟨u, v, rfl⟩ := List.append_of_mem hbmem
      have hu : ∀ x ∈ u, x.start = b.start ∧ x.start ≤ x.«end» := fun x hx =>
        ⟨heads_start_eq hp hs1 hs2 x hx, hwf x (List.mem_append.mpr (Or.inl hx))⟩
      have hbwf : b.start ≤ b.«end» := hwf b hbmem
      rw [mergeLoop_bubble b hbwf u hu acc v]
      have hperm' : (u ++ v).Perm t2 := (List.perm_middle.symm.trans hp).cons_inv
      have hsub : (u ++ v).Sublist (u ++ b :: v) :=
        (List.sublist_cons_self b v).append_left u
      have hsorted' : List.Sorted startLE (u ++ v) := List.Pairwise.sublist hsub hs1
      have hwf' : ∀ x ∈ u ++ v, x.start ≤ x.«end» := by
        intro x hx
        rcases List.mem_append.mp hx with hxx | hxx
        · exact hwf x (List.mem_append.mpr (Or.inl hxx))
        · exact hwf x (List.mem_append.mpr (Or.inr (List.mem_cons_of_mem b hxx)))
      have hlen' : (u ++ v).length = n := by
        rw [List.length_append] at hlen ⊢
        rw [List.length_cons] at hlen
        omega
      have hs2' : List.Sorted startLE t2 := (List.sorted_cons.mp hs2).2
      rw [mergeLoop, mergeLoop]
      by_cases h : b.start ≤ acc.«end»
      · rw [if_pos h, if_pos h]
        exact ih (u ++ v) t2 _ hlen' hperm' hsorted' hs2' hwf'
      · rw [if_neg h, if_neg h, ih (u ++ v) t2 b hlen' hperm' hsorted' hs2' hwf']

/-- The whole merge run gives equal results on any two sorted permutations of
the same collection of well-formed blocks. -/
theorem mergeRun_perm_invariant (s1 s2 : List TimeBlock) (hp : s1.Perm s2)
    (hs1 : List.Sorted startLE s1) (hs2 : List.Sorted startLE s2)
    (hwf : ∀ x ∈ s1, x.start ≤ x.«end») : mergeRun s1 = mergeRun s2 := by
  cases s2 with
  | nil =>
    rw [← hp.symm.nil_eq]
  | cons b t2 =>
    have hbmem : b ∈ s1 := hp.mem_iff.mpr (List.mem_cons_self b t2)
    obtain ⟨u, v, rfl⟩ := List.append_of_mem hbmem
    have hu : ∀ x ∈ u, x.start = b.start ∧ x.start ≤ x.«end» := fun x hx =>
      ⟨heads_start_eq hp hs1 hs2 x hx, hwf x (List.mem_append.mpr (Or.inl hx))⟩
    have hbwf : b.start ≤ b.«end» := hwf b hbmem
    rw [mergeRun_bubble b hbwf u hu v, mergeRun, mergeRun]
    have hperm' : (u ++ v).Perm t2 := (List.perm_middle.symm.trans hp).cons_inv
    have hsub : (u ++ v).Sublist (u ++ b :: v) :=
      (List.sublist_cons_self b v).append_left u
    have hsorted' : List.Sorted startLE (u ++ v) := List.Pairwise.sublist hsub hs1
    have hwf' : ∀ x ∈ u ++ v, x.start ≤ x.«end» := by
      intro x hx
      rcases List.mem_append.mp hx with hxx | hxx
      · exact hwf x (List.mem_append.mpr (Or.inl hxx))
      · exact hwf x (List.mem_append.mpr (Or.inr (List.mem_cons_of_mem b hxx)))
    have hs2' : List.Sorted startLE t2 := (List.sorted_cons.mp hs2).2
    exact mergeLoop_perm_invariant (u ++ v).length (u ++ v) t2 b rfl hperm'
      hsorted' hs2' hwf'

/-- Two sorted permutations of a collection with pairwise distinct starts are
equal as lists. -/
theorem sorted_perm_nodup_start_eq :
    ∀ l1 l2 : List TimeBlock, l1.Perm l2 → List.Sorted startLE l1 →
      List.Sorted startLE l2 → (l1.map TimeBlock.start).Nodup → l1 = l2 := by
  intro l1
  induction l1 with
  | nil =>
    intro l2 hp _ _ _
    exact hp.nil_eq
  | cons a t1 ih =>
    intro l2 hp hs1 hs2 hnd
    cases l2 with
    | nil => exact absurd hp.symm.nil_eq (by simp)
    | cons b t2 =>
      have hbmem : b ∈ a :: t1 := hp.mem_iff.mpr (List.mem_cons_self b t2)
      have hstart : a.start = b.start := by
        have h1 : a.start ≤ b.start := by
          rcases List.mem_cons.mp hbmem with rfl | hbm
          · exact le_refl _
          · exact (List.sorted_cons.mp hs1).1 b hbm
        have h2 : b.start ≤ a.start := by
          have hamem : a ∈ b :: t2 := hp.mem_iff.mp (List.mem_cons_self a t1)
          rcases List.mem_cons.mp hamem with rfl | ham
          · exact le_refl _
          · exact (List.sorted_cons.mp hs2).1 a ham
        exact le_antisymm h1 h2
      have hab : b = a := by
        rcases List.mem_cons.mp hbmem with h | h
        · exact h
        · exfalso
          rw [List.map_cons, List.nodup_cons] at hnd
          exact hnd.1 (hstart ▸ (List.mem_map_of_mem TimeBlock.start h))
      subst hab
      rw [ih t2 hp.cons_inv (List.sorted_cons.mp hs1).2 (List.sorted_cons.mp hs2).2
        (by rw [List.map_cons, List.nodup_cons] at hnd; exact hnd.2)]

/-! ## Claim C3, amended part -/

/-- C3 amended: `mergeTimeBlocks` is insensitive to the input order of a
collection of well-formed ranges, and `intersectTimeBlocks` is insensitive to
the input order of each argument provided the ranges within each argument
have pairwise distinct start instants (by the counterexample, equal-start
overlapping ranges can change the intersect output order). -/
theorem merge_intersect_permutation_invariance
    (x x' a a' b b' : List TimeBlock)
    (hx : x.Perm x') (hwfx : ∀ r ∈ x, r.start < r.«end»)
    (ha : a.Perm a') (hb : b.Perm b')
    (hna : (a.map TimeBlock.start).Nodup) (hnb : (b.map TimeBlock.start).Nodup) :
    mergeTimeBlocks x' = mergeTimeBlocks x ∧
    intersectTimeBlocks a' b' = intersectTimeBlocks a b := by
  constructor
  · rw [mergeTimeBlocks, mergeTimeBlocks]
    apply mergeRun_perm_invariant
    · exact (List.perm_insertionSort startLE x').trans
        (hx.symm.trans (List.perm_insertionSort startLE x).symm)
    · exact List.sorted_insertionSort startLE x'
    · exact List.sorted_insertionSort startLE x
    · intro r hr
      have hrx : r ∈ x :=
        hx.mem_iff.mpr ((List.perm_insertionSort startLE x').mem_iff.mp hr)
      exact le_of_lt (hwfx r hrx)
  · have hsa : sortByStart a' = sortByStart a := by
      apply sorted_perm_nodup_start_eq
      · exact (List.perm_insertionSort startLE a').trans
          (ha.symm.trans (List.perm_insertionSort startLE a).symm)
      · exact List.sorted_insertionSort startLE a'
      · exact List.sorted_insertionSort startLE a
      · exact (((List.perm_insertionSort startLE a').trans ha.symm).map
          TimeBlock.start).nodup_iff.mpr hna
    have hsb : sortByStart b' = sortByStart b := by
      apply sorted_perm_nodup_start_eq
      · exact (List.perm_insertionSort startLE b').trans
          (hb.symm.trans (List.perm_insertionSort startLE b).symm)
      · exact List.sorted_insertionSort startLE b'
      · exact List.sorted_insertionSort startLE b
      · exact (((List.perm_insertionSort startLE b').trans hb.symm).map
          TimeBlock.start).nodup_iff.mpr hnb
    rw [intersectTimeBlocks, intersectTimeBlocks, hsa, hsb,
      ← ha.length_eq, ← hb.length_eq]

/-- C3 amended witness: concrete permuted collections with distinct starts. -/
theorem merge_intersect_permutation_invariance_witness :
    mergeTimeBlocks [⟨1, 3⟩, ⟨0, 5⟩] = mergeTimeBlocks [⟨0, 5⟩, ⟨1, 3⟩] ∧
    intersectTimeBlocks [⟨2, 6⟩, ⟨0, 4⟩] [⟨1, 5⟩] =
      intersectTimeBlocks [⟨0, 4⟩, ⟨2, 6⟩] [⟨1, 5⟩] :=
  merge_intersect_permutation_invariance
    [⟨0, 5⟩, ⟨1, 3⟩] [⟨1, 3⟩, ⟨0, 5⟩] [⟨0, 4⟩, ⟨2, 6⟩] [⟨2, 6⟩, ⟨0, 4⟩]
    [⟨1, 5⟩] [⟨1, 5⟩] (List.Perm.swap _ _ _) (by decide)
    (List.Perm.swap _ _ _) (List.Perm.refl _) (by decide) (by decide)

/-! ## Subtract output invariants (claim C10, amended part) -/

/-- Each fragment of a single subtraction is well-formed, stays within the
block, and has no positive-duration overlap with the event.  The block must
be well-formed; the event may be arbitrary. -/
theorem subtractTimeBlock_spec (block event : TimeBlock)
    (hb : block.start ≤ block.«end») :
    ∀ f ∈ subtractTimeBlock block event,
      f.start ≤ f.«end» ∧ block.start ≤ f.start ∧ f.«end» ≤ block.«end» ∧
      isTimeBlockOverlapping f event = false := by
  intro f hf
  rw [subtractTimeBlock] at hf
  by_cases h : event.«end» ≤ block.start ∨ block.«end» ≤ event.start
  · rw [if_pos h, List.mem_singleton] at hf
    subst hf
    refine ⟨hb, le_refl _, le_refl _, ?_⟩
    simp only [isTimeBlockOverlapping, Bool.and_eq_false_iff, decide_eq_false_iff_not]
    omega
  · rw [if_neg h] at hf
    push_neg at h
    obtain ⟨h1, h2⟩ := h
    rcases List.mem_append.mp hf with hfa | hfb
    · by_cases hA : block.start < event.start
      · rw [if_pos hA, List.mem_singleton] at hfa
        subst hfa
        refine ⟨le_of_lt hA, le_refl _, le_of_lt h2, ?_⟩
        simp only [isTimeBlockOverlapping, Bool.and_eq_false_iff, decide_eq_false_iff_not]
        omega
      · rw [if_neg hA] at hfa
        exact absurd hfa (List.not_mem_nil f)
    · by_cases hB : event.«end» < block.«end»
      · rw [if_pos hB, List.mem_singleton] at hfb
        subst hfb
        refine ⟨le_of_lt hB, le_of_lt h1, le_refl _, ?_⟩
        simp only [isTimeBlockOverlapping, Bool.and_eq_false_iff, decide_eq_false_iff_not]
        omega
      · rw [if_neg hB] at hfb
        exact absurd hfb (List.not_mem_nil f)

/-- A single subtraction emits its fragments in ascending disjoint order,
provided the event is well-formed. -/
theorem subtractTimeBlock_pairwise (block event : TimeBlock)
    (he : event.start ≤ event.«end») :
    List.Pairwise (fun f g => f.«end» ≤ g.start) (subtractTimeBlock block event) := by
  rw [subtractTimeBlock]
  by_cases h : event.«end» ≤ block.start ∨ block.«end» ≤ event.start
  · rw [if_pos h]
    simp
  · rw [if_neg h]
    by_cases hA : block.start < event.start <;> by_cases hB : event.«end» < block.«end» <;>
      simp [hA, hB, he]

/-- Shrinking a fragment preserves the absence of positive-duration overlap. -/
theorem overlap_false_of_within {f g ev : TimeBlock}
    (h1 : g.start ≤ f.start) (h2 : f.«end» ≤ g.«end»)
    (h : isTimeBlockOverlapping g ev = false) :
    isTimeBlockOverlapping f ev = false := by
  simp only [isTimeBlockOverlapping, Bool.and_eq_false_iff,
    decide_eq_false_iff_not] at h ⊢
  omega

/-- Invariant of the subtract fold: every fragment of the result is
well-formed, lies within some fragment of the starting set, and has no
positive-duration overlap with any processed event; ascending disjoint order
is preserved.  The starting fragments and all events must be well-formed. -/
theorem subtract_fold_spec (events : List TimeBlock) :
    ∀ remaining : List TimeBlock,
      (∀ c ∈ events, c.start ≤ c.«end») →
      (∀ g ∈ remaining, g.start ≤ g.«end») →
      (∀ f ∈ events.foldl
          (fun rem ev => rem.flatMap (fun b => subtractTimeBlock b ev)) remaining,
        (f.start ≤ f.«end» ∧ ∃ g ∈ remaining, g.start ≤ f.start ∧ f.«end» ≤ g.«end») ∧
        (∀ ev ∈ events, isTimeBlockOverlapping f ev = false)) ∧
      (List.Pairwise (fun f g => f.«end» ≤ g.start) remaining →
        List.Pairwise (fun f g => f.«end» ≤ g.start)
          (events.foldl
            (fun rem ev => rem.flatMap (fun b => subtractTimeBlock b ev)) remaining)) := by
  induction events with
  | nil =>
    intro remaining _ hwf
    rw [List.foldl_nil]
    exact ⟨fun f hf => ⟨⟨hwf f hf, f, hf, le_refl _, le_refl _⟩,
      fun ev hev => absurd hev (List.not_mem_nil ev)⟩, id⟩
  | cons ev rest ih =>
    intro remaining hev hwf
    rw [List.foldl_cons]
    have hevwf : ev.start ≤ ev.«end» := hev ev (List.mem_cons_self ev rest)
    have hrestwf : ∀ c ∈ rest, c.start ≤ c.«end» :=
      fun c hc => hev c (List.mem_cons_of_mem ev hc)
    have hwf' : ∀ g ∈ remaining.flatMap (fun b => subtractTimeBlock b ev),
        g.start ≤ g.«end» := by
      intro g hg
      rw [List.mem_flatMap] at hg
      obtain ⟨p, hp, hg⟩ := hg
      exact (subtractTimeBlock_spec p ev (hwf p hp) g hg).1
    obtain ⟨ihmem, ihpw⟩ :=
      ih (remaining.flatMap (fun b => subtractTimeBlock b ev)) hrestwf hwf'
    constructor
    · intro f hf
      obtain ⟨⟨hfwf, g', hg', hg'1, hg'2⟩, hnov⟩ := ihmem f hf
      rw [List.mem_flatMap] at hg'
      obtain ⟨p, hp, hg'p⟩ := hg'
      obtain ⟨hg'wf, hps, hpe, hnovev⟩ := subtractTimeBlock_spec p ev (hwf p hp) g' hg'p
      refine ⟨⟨hfwf, p, hp, le_trans hps hg'1, le_trans hg'2 hpe⟩, ?_⟩
      intro ev' hev'
      rcases List.mem_cons.mp hev' with rfl | hev'
      · exact overlap_false_of_within hg'1 hg'2 hnovev
      · exact hnov ev' hev'
    · intro hpw
      apply ihpw
      rw [List.pairwise_flatMap]
      refine ⟨fun p _ => subtractTimeBlock_pairwise p ev hevwf, ?_⟩
      apply List.Pairwise.imp_of_mem ?_ hpw
      intro p q hp hq hrel x hx y hy
      have hxs := subtractTimeBlock_spec p ev (hwf p hp) x hx
      have hys := subtractTimeBlock_spec q ev (hwf q hq) y hy
      exact le_trans (le_trans hxs.2.2.1 hrel) hys.2.1

/-! ## Claim C10, amended part -/

/-- C10 amended: for a well-formed base block and well-formed cut blocks,
every fragment of `subtractTimeBlocks` lies within the base, the fragments
are pairwise disjoint in ascending order, and no fragment has a
positive-duration overlap with any cut (by the counterexample, an ill-formed
cut can break the disjointness). -/
theorem subtractTimeBlocks_output_invariant (base : TimeBlock)
    (cuts : List TimeBlock) (hbase : base.start < base.«end»)
    (hcuts : ∀ c ∈ cuts, c.start < c.«end») :
    (∀ f ∈ subtractTimeBlocks base cuts,
      base.start ≤ f.start ∧ f.«end» ≤ base.«end») ∧
    List.Pairwise (fun f g => f.«end» ≤ g.start) (subtractTimeBlocks base cuts) ∧
    (∀ f ∈ subtractTimeBlocks base cuts, ∀ c ∈ cuts,
      isTimeBlockOverlapping f c = false) := by
  obtain ⟨hmem, hpw⟩ := subtract_fold_spec cuts [base]
    (fun c hc => le_of_lt (hcuts c hc))
    (by
      intro g hg
      rw [List.mem_singleton] at hg
      subst hg
      exact le_of_lt hbase)
  rw [subtractTimeBlocks]
  refine ⟨?_, ?_, ?_⟩
  · intro f hf
    obtain ⟨⟨_, g, hg, h1, h2⟩, _⟩ := hmem f hf
    rw [List.mem_singleton] at hg
    subst hg
    exact ⟨h1, h2⟩
  · exact hpw (List.pairwise_singleton _ base)
  · intro f hf c hc
    exact (hmem f hf).2 c hc

/-- C10 amended witness: the theorem instantiated at base `[0,10)` and cuts
`[2,4)`, `[6,8)`. -/
theorem subtractTimeBlocks_output_invariant_witness :
    (∀ f ∈ subtractTimeBlocks ⟨0, 10⟩ [⟨2, 4⟩, ⟨6, 8⟩],
      (⟨0, 10⟩ : TimeBlock).start ≤ f.start ∧
      f.«end» ≤ (⟨0, 10⟩ : TimeBlock).«end») ∧
    List.Pairwise (fun f g => f.«end» ≤ g.start)
      (subtractTimeBlocks ⟨0, 10⟩ [⟨2, 4⟩, ⟨6, 8⟩]) ∧
    (∀ f ∈ subtractTimeBlocks ⟨0, 10⟩ [⟨2, 4⟩, ⟨6, 8⟩],
      ∀ c ∈ ([⟨2, 4⟩, ⟨6, 8⟩] : List TimeBlock),
      isTimeBlockOverlapping f c = false) :=
  subtractTimeBlocks_output_invariant ⟨0, 10⟩ [⟨2, 4⟩, ⟨6, 8⟩]
    (by decide) (by decide)

end Actbeat
